import Mathlib

set_option maxHeartbeats 1000000

/-!
Verification of the `AInt` arbitrary-precision integer class from
`test_lab1.py` (and the top-level `multiply.py` helper, which the spec
excludes as dead code).

An `AInt` object stores its magnitude as `self.bits`, a list of booleans
with index 0 the least significant bit.  The `append` method buffers
most-significant `False` bits and only commits them once a later `True`
bit arrives, so `self.bits` never ends in `False`.  We model an `AInt`
by its `bits` list (`List Bool`, little endian) and model the buffering
as the `normalize` function that removes most-significant `false` bits.
-/

namespace AInt

/-- Integer value of a little-endian bit list (`AInt.__int__`:
`sum(v << i for i, v in enumerate(self.bits))`). -/
def value : List Bool → Nat
  | [] => 0
  | b :: t => (cond b 1 0) + 2 * value t

/-- Remove most-significant (trailing) `false` bits.  This is the net
effect of feeding a bit list through `AInt.append`'s buffer (`self.buf`
holds a run of `False` bits, committed to `self.bits` only when a `True`
arrives), and also of `AInt.remove_leading_zeros`. -/
def normalize : List Bool → List Bool
  | [] => []
  | b :: t =>
    match normalize t with
    | [] => cond b [true] []
    | r => b :: r

/-- A bit list is normalized when it has no most-significant `false`
bits, i.e. it is a fixed point of `normalize`.  This is the invariant of
the stored `self.bits` of every `AInt` object. -/
def Normalized (l : List Bool) : Prop := normalize l = l

instance (l : List Bool) : Decidable (Normalized l) :=
  inferInstanceAs (Decidable (normalize l = l))

/-- `AInt(bits=l)`: the constructor feeds `l` through `append`, so the
stored bits are `normalize l`. -/
def ofBits (l : List Bool) : List Bool := normalize l

/-- `AInt(s)` for a character string `s`: `__init__` computes
`bits = [si == '1' for si in reversed(list(s))]` and feeds it through
`append`.  Any character other than `'1'` yields a `false` bit. -/
def ofString (s : List Char) : List Bool :=
  ofBits (s.reverse.map (fun c => c == '1'))

/-- Models the buggy calls `AInt(self.bits[:m])` in `AInt.__mul__`,
where a *list of booleans* is passed positionally as the string
parameter `s`.  `__init__` then evaluates `si == '1'` elementwise, and
in Python a boolean is never equal to the character `'1'`, so every
resulting bit is `False`. -/
def boolsAsStr (l : List Bool) : List Bool :=
  ofBits (l.reverse.map (fun _ => false))

/-- `AInt.__repr__`: big-endian character rendering; the zero value
(empty bit list) renders as the single character `'0'`. -/
def reprA (xs : List Bool) : List Char :=
  if xs.length = 0 then ['0']
  else (xs.map (fun b => cond b '1' '0')).reverse

/-- `AInt.isodd`: `len(self) and self.bits[0]` — false for the empty
list, otherwise the least significant bit. -/
def isodd (xs : List Bool) : Bool := xs.headD false

/-- `AInt.fhalf`: floor division by two, `AInt(bits=self.bits[1:])`. -/
def fhalf (xs : List Bool) : List Bool := ofBits xs.tail

/-- `AInt.twice`: multiplication by two, `AInt(bits=[False] + self.bits)`. -/
def twice (xs : List Bool) : List Bool := ofBits (false :: xs)

/-- `itertools.zip_longest(self.bits, other.bits, fillvalue=False)`:
pair the two bit lists positionally, padding the shorter with `false`. -/
def zipLongest : List Bool → List Bool → List (Bool × Bool)
  | [], ys => ys.map (fun y => (false, y))
  | x :: xt, ys => (x, ys.headD false) :: zipLongest xt ys.tail

/-- The loop body of `AInt.__add__`: for each pair emit the three-way
parity `(a != b) != c` and carry the majority
`(a and b) or (b and c) or (a and c)`; after the last pair append the
final carry. -/
def rippleCarry : List (Bool × Bool) → Bool → List Bool
  | [], c => [c]
  | p :: ps, c =>
    ((p.1 != p.2) != c) :: rippleCarry ps ((p.1 && p.2) || (p.2 && c) || (p.1 && c))

/-- `AInt.__add__`: ripple-carry addition; the output is built through
`append`, hence normalized. -/
def add (xs ys : List Bool) : List Bool :=
  normalize (rippleCarry (zipLongest xs ys) false)

/-- The complement list of `AInt.__sub__`:
`[not b for a, b in zip_longest(self.bits, other.bits, fillvalue=False)]`. -/
def compBits (xs ys : List Bool) : List Bool :=
  (zipLongest xs ys).map (fun p => !p.2)

/-- `AInt.__sub__`: two's-complement subtraction via addition.  The
`assert len(other.bits) <= len(self.bits)` guard is modeled by the
`Option`: `none` models the `AssertionError`.  On success the code
computes `self + AInt(bits=comp) + AInt('1')`, pops the most
significant bit of the (normalized) sum, and strips leading zeros. -/
def sub (xs ys : List Bool) : Option (List Bool) :=
  if ys.length ≤ xs.length then
    some (normalize (List.dropLast (add (add xs (ofBits (compBits xs ys))) (ofString ['1']))))
  else none

/-- Python tuple comparison `<` on equal-or-different-length boolean
tuples: lexicographic with `False < True`, a strict prefix being
smaller. -/
def lexLt : List Bool → List Bool → Bool
  | [], [] => false
  | [], _ :: _ => true
  | _ :: _, [] => false
  | x :: xt, y :: yt => (!x && y) || (x == y && lexLt xt yt)

/-- `AInt.__lt__`: shorter normalized length is smaller; on equal
length compare the reversed bit tuples lexicographically. -/
def ltA (xs ys : List Bool) : Bool :=
  decide (xs.length < ys.length) ||
    (decide (xs.length = ys.length) && lexLt xs.reverse ys.reverse)

/-- `AInt.__le__`: `self < other or self == other`, where `__eq__`
compares the bit tuples elementwise. -/
def leA (xs ys : List Bool) : Bool := ltA xs ys || decide (xs = ys)

/-- Python slice `xs[:m:step]`: the elements at indices `0, step,
2*step, ...` below `m`. -/
def sliceStep (xs : List Bool) (m step : Nat) : List Bool :=
  (((xs.take m).enum).filter (fun p => p.1 % step == 0)).map Prod.snd

lemma normalize_cons (b : Bool) (t : List Bool) :
    normalize (b :: t) = match normalize t with
      | [] => cond b [true] []
      | r => b :: r := rfl

lemma normalize_cons_of_nil {t : List Bool} (b : Bool) (h : normalize t = []) :
    normalize (b :: t) = cond b [true] [] := by
  rw [normalize_cons, h]

lemma normalize_cons_of_cons {t c cs} (b : Bool) (h : normalize t = c :: cs) :
    normalize (b :: t) = b :: c :: cs := by
  rw [normalize_cons, h]

lemma value_normalize (l : List Bool) : value (normalize l) = value l := by
  induction l with
  | nil => rfl
  | cons b t ih =>
    cases hnt : normalize t with
    | nil =>
      rw [hnt] at ih
      rw [normalize_cons_of_nil b hnt]
      cases b <;> simp [value, ← ih]
    | cons c cs =>
      rw [hnt] at ih
      rw [normalize_cons_of_cons b hnt]
      simp only [value] at ih ⊢
      omega

lemma normalize_idem (l : List Bool) : normalize (normalize l) = normalize l := by
  induction l with
  | nil => rfl
  | cons b t ih =>
    cases hnt : normalize t with
    | nil =>
      rw [normalize_cons_of_nil b hnt]
      cases b <;> rfl
    | cons c cs =>
      rw [hnt] at ih
      rw [normalize_cons_of_cons b hnt]
      exact normalize_cons_of_cons b ih

lemma normalized_normalize (l : List Bool) : Normalized (normalize l) :=
  normalize_idem l

lemma normalized_nil : Normalized ([] : List Bool) := rfl

lemma normalized_add (xs ys : List Bool) : Normalized (add xs ys) :=
  normalize_idem _

lemma normalized_ofBits (l : List Bool) : Normalized (ofBits l) := normalize_idem l

lemma normalized_ofString (s : List Char) : Normalized (ofString s) := normalize_idem _

lemma normalized_fhalf (xs : List Bool) : Normalized (fhalf xs) := normalize_idem _

lemma normalized_twice (xs : List Bool) : Normalized (twice xs) := normalize_idem _

lemma normalize_length_le (l : List Bool) : (normalize l).length ≤ l.length := by
  induction l with
  | nil => simp [normalize]
  | cons b t ih =>
    cases hnt : normalize t with
    | nil =>
      rw [normalize_cons_of_nil b hnt]
      cases b <;> simp
    | cons c cs =>
      rw [hnt] at ih
      rw [normalize_cons_of_cons b hnt]
      simpa using Nat.succ_le_succ ih

lemma normalize_map_false (l : List Bool) : normalize (l.map (fun _ => false)) = [] := by
  induction l with
  | nil => rfl
  | cons b t ih =>
    simp only [List.map_cons]
    rw [normalize_cons_of_nil false ih]
    rfl

lemma boolsAsStr_eq_nil (l : List Bool) : boolsAsStr l = [] := by
  unfold boolsAsStr ofBits
  exact normalize_map_false _

lemma add_nil_nil : add [] [] = [] := rfl

lemma reprA_nil : reprA [] = ['0'] := rfl

lemma ne_nil_of_reprA {ys : List Bool} (h : ¬ reprA ys = ['0']) : ys ≠ [] := by
  intro hn
  exact h (hn ▸ reprA_nil)

lemma fhalf_length_lt {ys : List Bool} (h : ys ≠ []) : (fhalf ys).length < ys.length := by
  cases ys with
  | nil => exact absurd rfl h
  | cons y yt =>
    have := normalize_length_le yt.tail
    have h2 : (fhalf (y :: yt)).length ≤ yt.length := by
      simpa [fhalf, ofBits] using normalize_length_le yt
    simpa using Nat.lt_succ_of_le h2

mutual

/-- `AInt.oldmul`: shift-and-add multiplication.  Note the recursive
call `self * other.fhalf()` goes through `__mul__`, not `oldmul`. -/
def oldmul (xs ys : List Bool) : Option (List Bool) :=
  if h : reprA ys = ['0'] then some []
  else
    match mul xs (fhalf ys) with
    | none => none
    | some z =>
      if isodd ys = false then some (twice z)
      else some (add xs (twice z))
termination_by 2 * (xs.length + ys.length)
decreasing_by
  have := fhalf_length_lt (ne_nil_of_reprA h)
  omega

/-- `AInt.__mul__`: Karatsuba-style multiplication.  For
`n = max(len(self), len(other)) <= 1` it delegates to `oldmul`;
otherwise it splits via `AInt(self.bits[:m])` and
`AInt(self.bits[:m:n])` — both of which pass a boolean list as the
string argument (`boolsAsStr`) — and combines with
`(raise_n+p1)+(raise_m+(p3-p1-p2))+(p2)` where `raise_n`/`raise_m` are
`AInt([False]*(2*m))`/`AInt([False]*m)`, again boolean lists passed as
strings.  The subtractions can raise, modeled by `Option`. -/
def mul (xs ys : List Bool) : Option (List Bool) :=
  if h : max xs.length ys.length ≤ 1 then oldmul xs ys
  else
    let m := max xs.length ys.length / 2
    let xl := boolsAsStr (xs.take m)
    let xr := boolsAsStr (sliceStep xs m (max xs.length ys.length))
    let yl := boolsAsStr (ys.take m)
    let yr := boolsAsStr (sliceStep ys m (max xs.length ys.length))
    match mul xl yl, mul xr yr, mul (add xl xr) (add yl yr) with
    | some p1, some p2, some p3 =>
      match sub p3 p1 with
      | none => none
      | some d1 =>
        match sub d1 p2 with
        | none => none
        | some d2 =>
          some (add (add (add (boolsAsStr (List.replicate (2 * m) false)) p1)
            (add (boolsAsStr (List.replicate m false)) d2)) p2)
    | _, _, _ => none
termination_by 2 * (xs.length + ys.length) + 1
decreasing_by
  all_goals try simp only [boolsAsStr_eq_nil, add_nil_nil, List.length_nil]
  all_goals omega

end

/-- `AInt.div`: recursive binary long division, returning the quotient
and the remainder.  The recursive call is on `self.fhalf()`; the `r >=
other` comparison resolves to `other.__le__(r)`; the inner subtraction
can raise (for a zero divisor it never does), modeled by `Option`. -/
def div (xs ys : List Bool) : Option (List Bool × List Bool) :=
  if h : reprA xs = ['0'] then some ([], [])
  else
    match div (fhalf xs) ys with
    | none => none
    | some (q0, r0) =>
      let q1 := twice q0
      let r1 := twice r0
      let r2 := if isodd xs then add r1 (ofString ['1']) else r1
      if leA ys r2 then
        match sub r2 ys with
        | none => none
        | some r3 => some (add q1 (ofString ['1']), r3)
      else some (q1, r2)
termination_by xs.length
decreasing_by
  exact fhalf_length_lt (ne_nil_of_reprA h)

/-- Fuel-indexed unrolling of `AInt.div`: `divF fuel` performs at most
`fuel` recursive steps, returning `none` when the fuel runs out before
the base case is reached. -/
def divF : Nat → List Bool → List Bool → Option (List Bool × List Bool)
  | 0, xs, _ =>
    if reprA xs = ['0'] then some ([], []) else none
  | fuel + 1, xs, ys =>
    if reprA xs = ['0'] then some ([], [])
    else
      match divF fuel (fhalf xs) ys with
      | none => none
      | some (q0, r0) =>
        let q1 := twice q0
        let r1 := twice r0
        let r2 := if isodd xs then add r1 (ofString ['1']) else r1
        if leA ys r2 then
          match sub r2 ys with
          | none => none
          | some r3 => some (add q1 (ofString ['1']), r3)
        else some (q1, r2)

lemma normalized_cons {b : Bool} {t : List Bool} (h : Normalized (b :: t)) :
    Normalized t := by
  unfold Normalized at h ⊢
  cases hnt : normalize t with
  | nil =>
    rw [normalize_cons_of_nil b hnt] at h
    cases b with
    | false => exact absurd h (by simp)
    | true =>
      simp only [cond] at h
      obtain ⟨-, ht⟩ := List.cons.inj h
      rw [← ht]
  | cons c cs =>
    rw [normalize_cons_of_cons b hnt] at h
    obtain ⟨-, ht⟩ := List.cons.inj h
    rw [← ht]

lemma le_value_of_normalized : ∀ {xs : List Bool}, Normalized xs → xs ≠ [] →
    2 ^ (xs.length - 1) ≤ value xs := by
  intro xs
  induction xs with
  | nil => intro _ h; exact absurd rfl h
  | cons b t ih =>
    intro h _
    cases t with
    | nil =>
      have hb : b = true := by
        cases b
        · exact absurd h (by decide)
        · rfl
      subst hb
      simp [value]
    | cons c cs =>
      have ht := normalized_cons h
      have h1 := ih ht (by simp)
      have hl : ((b :: c :: cs).length - 1) = cs.length + 1 := by simp
      have hl2 : ((c :: cs).length - 1) = cs.length := by simp
      rw [hl2] at h1
      have hp : (2 : Nat) ^ (cs.length + 1) = 2 * 2 ^ cs.length := by
        rw [pow_succ]; ring
      have hv : value (b :: c :: cs) = (cond b 1 0) + 2 * value (c :: cs) := rfl
      rw [hl, hp, hv]
      omega

lemma value_lt (l : List Bool) : value l < 2 ^ l.length := by
  induction l with
  | nil => simp [value]
  | cons b t ih =>
    have hp : (2 : Nat) ^ (t.length + 1) = 2 * 2 ^ t.length := by
      rw [pow_succ]; ring
    have hv : value (b :: t) = (cond b 1 0) + 2 * value t := rfl
    have hb : (cond b 1 0 : Nat) ≤ 1 := by cases b <;> simp
    simp only [List.length_cons]
    omega

lemma value_inj : ∀ xs ys : List Bool, Normalized xs → Normalized ys →
    value xs = value ys → xs = ys := by
  intro xs
  induction xs with
  | nil =>
    intro ys _ hy h
    cases ys with
    | nil => rfl
    | cons y yt =>
      exfalso
      have h1 := le_value_of_normalized hy (by simp)
      have h2 : 0 < 2 ^ ((y :: yt).length - 1) := pow_pos (by norm_num) _
      have h3 : value ([] : List Bool) = 0 := rfl
      omega
  | cons x xt ih =>
    intro ys hx hy h
    cases ys with
    | nil =>
      exfalso
      have h1 := le_value_of_normalized hx (by simp)
      have h2 : 0 < 2 ^ ((x :: xt).length - 1) := pow_pos (by norm_num) _
      have h3 : value ([] : List Bool) = 0 := rfl
      omega
    | cons y yt =>
      have hx' := normalized_cons hx
      have hy' := normalized_cons hy
      have hv : value (x :: xt) = (cond x 1 0) + 2 * value xt := rfl
      have hw : value (y :: yt) = (cond y 1 0) + 2 * value yt := rfl
      rw [hv, hw] at h
      have hxy : x = y := by
        cases x <;> cases y
        · rfl
        · exfalso; simp only [Bool.cond_true, Bool.cond_false] at h; omega
        · exfalso; simp only [Bool.cond_true, Bool.cond_false] at h; omega
        · rfl
      subst hxy
      have ht : value xt = value yt := by
        cases x
        · simp only [Bool.cond_false] at h; omega
        · simp only [Bool.cond_true] at h; omega
      rw [ih yt hx' hy' ht]

lemma value_append_bit (p : List Bool) (b : Bool) :
    value (p ++ [b]) = value p + (cond b 1 0) * 2 ^ p.length := by
  induction p with
  | nil => cases b <;> rfl
  | cons a q ih =>
    have h1 : value ((a :: q) ++ [b]) = (cond a 1 0) + 2 * value (q ++ [b]) := rfl
    have hv : value (a :: q) = (cond a 1 0) + 2 * value q := rfl
    rw [h1, ih, hv, List.length_cons, pow_succ]
    ring

lemma getLast_true : ∀ (xs : List Bool), Normalized xs → ∀ (h : xs ≠ []),
    xs.getLast h = true := by
  intro xs
  induction xs with
  | nil => intro _ h; exact absurd rfl h
  | cons b t ih =>
    intro hx h
    cases t with
    | nil =>
      cases b
      · exact absurd hx (by decide)
      · rfl
    | cons c cs =>
      rw [List.getLast_cons (by simp)]
      exact ih (normalized_cons hx) (by simp)

lemma value_dropLast (xs : List Bool) (hx : Normalized xs) (h : xs ≠ []) :
    value xs.dropLast + 2 ^ (xs.length - 1) = value xs := by
  conv_rhs => rw [← List.dropLast_append_getLast h]
  rw [value_append_bit, getLast_true xs hx h]
  simp [List.length_dropLast]

/-- Big-endian value of a bit list (most significant first); used only
to reason about the lexicographic comparison of reversed bit tuples. -/
def valueBE : List Bool → Nat
  | [] => 0
  | b :: t => (cond b 1 0) * 2 ^ t.length + valueBE t

lemma valueBE_lt (l : List Bool) : valueBE l < 2 ^ l.length := by
  induction l with
  | nil => simp [valueBE]
  | cons b t ih =>
    have hp : (2 : Nat) ^ (t.length + 1) = 2 * 2 ^ t.length := by
      rw [pow_succ]; ring
    have hv : valueBE (b :: t) = (cond b 1 0) * 2 ^ t.length + valueBE t := rfl
    have hb : (cond b 1 0 : Nat) * 2 ^ t.length ≤ 2 ^ t.length := by
      cases b <;> simp
    simp only [List.length_cons]
    omega

lemma valueBE_append_bit (p : List Bool) (b : Bool) :
    valueBE (p ++ [b]) = 2 * valueBE p + (cond b 1 0) := by
  induction p with
  | nil => cases b <;> rfl
  | cons a q ih =>
    have h1 : valueBE (a :: (q ++ [b])) =
        (cond a 1 0) * 2 ^ (q ++ [b]).length + valueBE (q ++ [b]) := rfl
    have h2 : valueBE (a :: q) = (cond a 1 0) * 2 ^ q.length + valueBE q := rfl
    simp only [List.cons_append]
    rw [h1, ih, h2, List.length_append, List.length_cons, List.length_nil, pow_succ]
    ring

lemma value_eq_valueBE_reverse (l : List Bool) : value l = valueBE l.reverse := by
  induction l with
  | nil => rfl
  | cons b t ih =>
    have hv : value (b :: t) = (cond b 1 0) + 2 * value t := rfl
    simp only [List.reverse_cons]
    rw [valueBE_append_bit, hv, ih]
    ring

lemma lexLt_iff : ∀ p q : List Bool, p.length = q.length →
    (lexLt p q = true ↔ valueBE p < valueBE q) := by
  intro p
  induction p with
  | nil =>
    intro q h
    cases q with
    | nil => simp [lexLt, valueBE]
    | cons y yt => simp at h
  | cons x xt ih =>
    intro q h
    cases q with
    | nil => simp at h
    | cons y yt =>
      have hlen : xt.length = yt.length := by simpa using h
      have h1 : valueBE (x :: xt) = (cond x 1 0) * 2 ^ xt.length + valueBE xt := rfl
      have h2 : valueBE (y :: yt) = (cond y 1 0) * 2 ^ yt.length + valueBE yt := rfl
      rw [← hlen] at h2
      have hx := valueBE_lt xt
      have hy := valueBE_lt yt
      rw [← hlen] at hy
      have hr : lexLt (x :: xt) (y :: yt) = ((!x && y) || (x == y && lexLt xt yt)) := rfl
      rw [hr, h1, h2]
      cases x <;> cases y <;>
        simp only [Bool.not_true, Bool.not_false, Bool.true_and, Bool.false_and,
          Bool.and_true, Bool.and_false, Bool.true_or, Bool.false_or, Bool.or_false,
          beq_self_eq_true, Bool.true_and, bne_iff_ne, Bool.cond_true, Bool.cond_false,
          Nat.one_mul, Nat.zero_mul, Nat.zero_add]
      · exact ih yt hlen
      · constructor
        · intro _; omega
        · intro _; trivial
      · constructor
        · intro hc; exact absurd hc (by simp)
        · intro hc; omega
      · simpa using ih yt hlen

lemma ltA_iff {xs ys : List Bool} (hx : Normalized xs) (hy : Normalized ys) :
    ltA xs ys = true ↔ value xs < value ys := by
  unfold ltA
  simp only [Bool.or_eq_true, Bool.and_eq_true, decide_eq_true_eq]
  rcases Nat.lt_trichotomy xs.length ys.length with h | h | h
  · constructor
    · intro _
      have h1 := value_lt xs
      have h2 := le_value_of_normalized hy (by
        intro hn
        rw [hn] at h
        simp at h)
      have h3 : (2 : Nat) ^ xs.length ≤ 2 ^ (ys.length - 1) :=
        Nat.pow_le_pow_right (by norm_num) (by omega)
      omega
    · intro _
      exact Or.inl h
  · have hlx : (xs.reverse).length = (ys.reverse).length := by simp [h]
    have hlex := lexLt_iff xs.reverse ys.reverse hlx
    rw [← value_eq_valueBE_reverse, ← value_eq_valueBE_reverse] at hlex
    constructor
    · rintro (hc | ⟨-, hc⟩)
      · omega
      · exact hlex.mp hc
    · intro hc
      exact Or.inr ⟨h, hlex.mpr hc⟩
  · constructor
    · rintro (hc | ⟨hc, -⟩) <;> omega
    · intro hc
      exfalso
      have hne : xs ≠ [] := by
        intro hn
        rw [hn] at h
        simp at h
      have h1 := le_value_of_normalized hx hne
      have h2 := value_lt ys
      have h3 : (2 : Nat) ^ ys.length ≤ 2 ^ (xs.length - 1) :=
        Nat.pow_le_pow_right (by norm_num) (by omega)
      omega

lemma leA_iff {xs ys : List Bool} (hx : Normalized xs) (hy : Normalized ys) :
    leA xs ys = true ↔ value xs ≤ value ys := by
  unfold leA
  simp only [Bool.or_eq_true, decide_eq_true_eq, ltA_iff hx hy]
  constructor
  · rintro (h | h)
    · omega
    · rw [h]
  · intro h
    rcases Nat.lt_or_ge (value xs) (value ys) with hc | hc
    · exact Or.inl hc
    · exact Or.inr (value_inj xs ys hx hy (by omega))

lemma leA_nil (r : List Bool) : leA [] r = true := by
  cases r with
  | nil => rfl
  | cons c cs => simp [leA, ltA]

lemma length_le_of_value_le {xs ys : List Bool} (hx : Normalized xs)
    (hy : Normalized ys) (h : value xs ≤ value ys) : xs.length ≤ ys.length := by
  by_contra hc
  push_neg at hc
  have hne : xs ≠ [] := by
    intro hn
    rw [hn] at hc
    simp at hc
  have h1 := le_value_of_normalized hx hne
  have h2 := value_lt ys
  have h3 : (2 : Nat) ^ ys.length ≤ 2 ^ (xs.length - 1) :=
    Nat.pow_le_pow_right (by norm_num) (by omega)
  omega

lemma value_map_false (l : List Bool) : value (l.map (fun _ => false)) = 0 := by
  induction l with
  | nil => rfl
  | cons b t ih =>
    have h1 : value (false :: t.map (fun _ => false)) =
        (cond false 1 0) + 2 * value (t.map (fun _ => false)) := rfl
    simp only [List.map_cons, h1, ih]
    rfl

lemma map_fst_zipLongest (xs : List Bool) : ∀ ys : List Bool,
    value ((zipLongest xs ys).map Prod.fst) = value xs := by
  induction xs with
  | nil =>
    intro ys
    have h1 : (zipLongest [] ys).map Prod.fst = ys.map (fun _ => false) := by
      simp [zipLongest, List.map_map]
    rw [h1, value_map_false]
    rfl
  | cons x xt ih =>
    intro ys
    have h1 : (zipLongest (x :: xt) ys).map Prod.fst =
        x :: (zipLongest xt ys.tail).map Prod.fst := rfl
    have h2 : value (x :: (zipLongest xt ys.tail).map Prod.fst) =
        (cond x 1 0) + 2 * value ((zipLongest xt ys.tail).map Prod.fst) := rfl
    rw [h1, h2, ih ys.tail]
    rfl

lemma map_snd_zipLongest (xs : List Bool) : ∀ ys : List Bool,
    value ((zipLongest xs ys).map Prod.snd) = value ys := by
  induction xs with
  | nil =>
    intro ys
    have h1 : (zipLongest [] ys).map Prod.snd = ys := by
      simp [zipLongest, List.map_map]
    rw [h1]
  | cons x xt ih =>
    intro ys
    have h1 : (zipLongest (x :: xt) ys).map Prod.snd =
        ys.headD false :: (zipLongest xt ys.tail).map Prod.snd := rfl
    have h2 : value (ys.headD false :: (zipLongest xt ys.tail).map Prod.snd) =
        (cond (ys.headD false) 1 0) + 2 * value ((zipLongest xt ys.tail).map Prod.snd) := rfl
    rw [h1, h2, ih ys.tail]
    cases ys with
    | nil => rfl
    | cons y yt => rfl

lemma value_rippleCarry : ∀ (ps : List (Bool × Bool)) (c : Bool),
    value (rippleCarry ps c) =
      value (ps.map Prod.fst) + value (ps.map Prod.snd) + (cond c 1 0) := by
  intro ps
  induction ps with
  | nil => intro c; cases c <;> rfl
  | cons p pt ih =>
    intro c
    obtain ⟨a, b⟩ := p
    have hr : rippleCarry ((a, b) :: pt) c =
        ((a != b) != c) :: rippleCarry pt ((a && b) || (b && c) || (a && c)) := rfl
    have h1 : value (((a != b) != c) :: rippleCarry pt ((a && b) || (b && c) || (a && c))) =
        (cond ((a != b) != c) 1 0) +
          2 * value (rippleCarry pt ((a && b) || (b && c) || (a && c))) := rfl
    have h2 : value ((a :: pt.map Prod.fst : List Bool)) =
        (cond a 1 0) + 2 * value (pt.map Prod.fst) := rfl
    have h3 : value ((b :: pt.map Prod.snd : List Bool)) =
        (cond b 1 0) + 2 * value (pt.map Prod.snd) := rfl
    rw [hr, h1, ih]
    simp only [List.map_cons, h2, h3]
    cases a <;> cases b <;> cases c <;> simp <;> ring

lemma value_add (xs ys : List Bool) : value (add xs ys) = value xs + value ys := by
  unfold add
  rw [value_normalize, value_rippleCarry, map_fst_zipLongest, map_snd_zipLongest]
  rfl

lemma value_map_not (ys : List Bool) :
    value (ys.map (fun y => !y)) + value ys + 1 = 2 ^ ys.length := by
  induction ys with
  | nil => rfl
  | cons y yt ih =>
    have h1 : value ((!y) :: yt.map (fun y => !y)) =
        (cond (!y) 1 0) + 2 * value (yt.map (fun y => !y)) := rfl
    have h2 : value (y :: yt) = (cond y 1 0) + 2 * value yt := rfl
    have hc : (cond (!y) 1 0 : Nat) + (cond y 1 0) = 1 := by cases y <;> rfl
    have hp : (2 : Nat) ^ (yt.length + 1) = 2 * 2 ^ yt.length := by
      rw [pow_succ]; ring
    simp only [List.map_cons, List.length_cons, h1, h2, hp]
    omega

lemma value_compBits : ∀ xs ys : List Bool,
    value (compBits xs ys) + value ys + 1 = 2 ^ max xs.length ys.length := by
  intro xs
  induction xs with
  | nil =>
    intro ys
    have hc : compBits [] ys = ys.map (fun y => !y) := by
      simp [compBits, zipLongest, List.map_map]
    have hm : max ([] : List Bool).length ys.length = ys.length := by
      simp
    rw [hc, hm]
    exact value_map_not ys
  | cons x xt ih =>
    intro ys
    cases ys with
    | nil =>
      have hc : compBits (x :: xt) [] = true :: compBits xt [] := rfl
      have hv : value (true :: compBits xt []) = 1 + 2 * value (compBits xt []) := rfl
      have h0 := ih []
      have hm : max xt.length ([] : List Bool).length = xt.length := by simp
      rw [hm] at h0
      have hm2 : max (x :: xt).length ([] : List Bool).length = xt.length + 1 := by
        simp
      have hp : (2 : Nat) ^ (xt.length + 1) = 2 * 2 ^ xt.length := by
        rw [pow_succ]; ring
      rw [hc, hv, hm2, hp]
      have hz : value ([] : List Bool) = 0 := rfl
      omega
    | cons y yt =>
      have hc : compBits (x :: xt) (y :: yt) = (!y) :: compBits xt yt := rfl
      have hv : value ((!y) :: compBits xt yt) =
          (cond (!y) 1 0) + 2 * value (compBits xt yt) := rfl
      have hw : value (y :: yt) = (cond y 1 0) + 2 * value yt := rfl
      have hcnd : (cond (!y) 1 0 : Nat) + (cond y 1 0) = 1 := by cases y <;> rfl
      have h0 := ih yt
      have hm : max (x :: xt).length (y :: yt).length = max xt.length yt.length + 1 := by
        simp only [List.length_cons]
        omega
      have hp : (2 : Nat) ^ (max xt.length yt.length + 1) =
          2 * 2 ^ max xt.length yt.length := by
        rw [pow_succ]; ring
      rw [hc, hv, hw, hm, hp]
      omega

lemma sub_spec {xs ys : List Bool} (hx : Normalized xs) (hy : Normalized ys)
    (h : value ys ≤ value xs) :
    ∃ r, sub xs ys = some r ∧ Normalized r ∧ value r + value ys = value xs := by
  have hlen : ys.length ≤ xs.length := length_le_of_value_le hy hx h
  have hmax : max xs.length ys.length = xs.length := by omega
  have hcomp := value_compBits xs ys
  rw [hmax] at hcomp
  set S := add (add xs (ofBits (compBits xs ys))) (ofString ['1']) with hS
  have hone : value (ofString ['1']) = 1 := rfl
  have hvS : value S + value ys = value xs + 2 ^ xs.length := by
    rw [hS, value_add, value_add]
    unfold ofBits
    rw [value_normalize, hone]
    omega
  have hSnorm : Normalized S := normalized_add _ _
  have hSlow : 2 ^ xs.length ≤ value S := by
    have := value_lt ys
    omega
  have hShigh : value S < 2 ^ (xs.length + 1) := by
    have h1 := value_lt xs
    have hp : (2 : Nat) ^ (xs.length + 1) = 2 * 2 ^ xs.length := by
      rw [pow_succ]; ring
    omega
  have hSne : S ≠ [] := by
    intro hn
    rw [hn] at hSlow
    have hz : value ([] : List Bool) = 0 := rfl
    have hpos : 0 < (2 : Nat) ^ xs.length := pow_pos (by norm_num) _
    omega
  have hSlen : S.length = xs.length + 1 := by
    have h1 := value_lt S
    have h2 := le_value_of_normalized hSnorm hSne
    have h3 : xs.length < S.length := by
      by_contra hcon
      push_neg at hcon
      have : (2 : Nat) ^ S.length ≤ 2 ^ xs.length :=
        Nat.pow_le_pow_right (by norm_num) hcon
      omega
    have h4 : S.length - 1 < xs.length + 1 := by
      by_contra hcon
      push_neg at hcon
      have : (2 : Nat) ^ (xs.length + 1) ≤ 2 ^ (S.length - 1) :=
        Nat.pow_le_pow_right (by norm_num) hcon
      omega
    omega
  have hdrop := value_dropLast S hSnorm hSne
  rw [hSlen] at hdrop
  simp only [Nat.add_sub_cancel] at hdrop
  refine ⟨normalize S.dropLast, ?_, normalized_normalize _, ?_⟩
  · unfold sub
    rw [if_pos hlen]
  · rw [value_normalize]
    omega

lemma value_one : value (ofString ['1']) = 1 := rfl

lemma value_twice (xs : List Bool) : value (twice xs) = 2 * value xs := by
  unfold twice ofBits
  rw [value_normalize]
  have h : value (false :: xs) = (cond false 1 0) + 2 * value xs := rfl
  rw [h]
  simp

lemma value_fhalf (xs : List Bool) : value (fhalf xs) = value xs / 2 := by
  unfold fhalf ofBits
  rw [value_normalize]
  cases xs with
  | nil => rfl
  | cons b t =>
    have hv : value (b :: t) = (cond b 1 0) + 2 * value t := rfl
    have hb : (cond b 1 0 : Nat) ≤ 1 := by cases b <;> simp
    simp only [List.tail_cons, hv]
    omega

lemma isodd_value (xs : List Bool) : (cond (isodd xs) 1 0 : Nat) = value xs % 2 := by
  cases xs with
  | nil => rfl
  | cons b t =>
    have hv : value (b :: t) = (cond b 1 0) + 2 * value t := rfl
    have hb : (cond b 1 0 : Nat) ≤ 1 := by cases b <;> simp
    simp only [isodd, List.headD_cons, hv]
    omega

lemma reprA_eq_zero_iff {xs : List Bool} (hx : Normalized xs) :
    reprA xs = ['0'] ↔ xs = [] := by
  constructor
  · intro h
    cases xs with
    | nil => rfl
    | cons b t =>
      exfalso
      unfold reprA at h
      rw [if_neg (by simp)] at h
      cases t with
      | nil =>
        simp only [List.map_cons, List.map_nil, List.reverse_singleton] at h
        cases b
        · exact absurd hx (by decide)
        · simp at h
      | cons c cs =>
        have hl := congrArg List.length h
        simp at hl
  · intro h
    rw [h]
    rfl

lemma value_replicate_true : ∀ k : Nat, value (List.replicate k true) + 1 = 2 ^ k := by
  intro k
  induction k with
  | zero => rfl
  | succ n ih =>
    have h1 : List.replicate (n + 1) true = true :: List.replicate n true := rfl
    have h2 : value (true :: List.replicate n true) =
        1 + 2 * value (List.replicate n true) := rfl
    rw [h1, h2, pow_succ]
    omega

lemma normalized_replicate_true : ∀ k : Nat, Normalized (List.replicate k true) := by
  intro k
  induction k with
  | zero => rfl
  | succ n ih =>
    unfold Normalized at ih ⊢
    have h1 : List.replicate (n + 1) true = true :: List.replicate n true := rfl
    rw [h1]
    cases hnt : normalize (List.replicate n true) with
    | nil =>
      rw [normalize_cons_of_nil true hnt]
      have hX : List.replicate n true = [] := by rw [← ih, hnt]
      rw [hX]
      rfl
    | cons c cs =>
      rw [normalize_cons_of_cons true hnt]
      rw [ih] at hnt
      rw [hnt]

lemma div_spec : ∀ (n : Nat) (xs ys : List Bool), xs.length ≤ n → Normalized xs →
    Normalized ys →
    ∃ q r, div xs ys = some (q, r) ∧ Normalized q ∧ Normalized r ∧
      (0 < value ys → value q * value ys + value r = value xs ∧ value r < value ys) := by
  intro n
  induction n with
  | zero =>
    intro xs ys hlen hx hy
    have hxs : xs = [] := List.length_eq_zero.mp (Nat.le_zero.mp hlen)
    subst hxs
    refine ⟨[], [], ?_, normalized_nil, normalized_nil, ?_⟩
    · rw [div]
      rfl
    · intro hpos
      have hz : value ([] : List Bool) = 0 := rfl
      constructor
      · simp [hz]
      · omega
  | succ n ih =>
    intro xs ys hlen hx hy
    by_cases hr : reprA xs = ['0']
    · have hxs : xs = [] := (reprA_eq_zero_iff hx).mp hr
      subst hxs
      refine ⟨[], [], ?_, normalized_nil, normalized_nil, ?_⟩
      · rw [div]
        rfl
      · intro hpos
        have hz : value ([] : List Bool) = 0 := rfl
        constructor
        · simp [hz]
        · omega
    · have hne : xs ≠ [] := fun hn => hr (by rw [hn]; rfl)
      have hfl : (fhalf xs).length ≤ n := by
        have := fhalf_length_lt hne
        omega
      obtain ⟨q0, r0, hdiv0, hq0, hr0, hval0⟩ :=
        ih (fhalf xs) ys hfl (normalized_fhalf xs) hy
      have hstep : div xs ys =
          (if leA ys (if isodd xs then add (twice r0) (ofString ['1']) else twice r0) then
            match sub (if isodd xs then add (twice r0) (ofString ['1']) else twice r0) ys with
            | none => none
            | some r3 => some (add (twice q0) (ofString ['1']), r3)
          else some (twice q0,
            if isodd xs then add (twice r0) (ofString ['1']) else twice r0)) := by
        rw [div, dif_neg hr, hdiv0]
      set r2 := (if isodd xs then add (twice r0) (ofString ['1']) else twice r0) with hr2def
      have hr2norm : Normalized r2 := by
        rw [hr2def]
        cases ho : isodd xs
        · rw [if_neg (by simp [ho])]
          exact normalized_twice r0
        · rw [if_pos (by simp [ho])]
          exact normalized_add _ _
      have hr2val : value r2 = 2 * value r0 + value xs % 2 := by
        rw [hr2def, ← isodd_value xs]
        cases ho : isodd xs
        · rw [if_neg (by simp [ho]), value_twice]
          simp
        · rw [if_pos (by simp [ho]), value_add, value_twice, value_one]
          simp
      have hhalf : value (fhalf xs) = value xs / 2 := value_fhalf xs
      rw [hhalf] at hval0
      by_cases hle : leA ys r2 = true
      · have hyle : value ys ≤ value r2 := (leA_iff hy hr2norm).mp hle
        obtain ⟨r3, hsub, hr3n, hr3v⟩ := sub_spec hr2norm hy hyle
        rw [hstep, if_pos hle, hsub]
        refine ⟨add (twice q0) (ofString ['1']), r3, rfl, normalized_add _ _, hr3n, ?_⟩
        intro hpos
        obtain ⟨hv0, hlt0⟩ := hval0 hpos
        have hq : value (add (twice q0) (ofString ['1'])) = 2 * value q0 + 1 := by
          rw [value_add, value_twice, value_one]
        constructor
        · rw [hq]
          have hexp : (2 * value q0 + 1) * value ys =
              2 * (value q0 * value ys) + value ys := by ring
          rw [hexp]
          generalize value q0 * value ys = t at hv0
          omega
        · omega
      · have hyle : ¬ value ys ≤ value r2 := fun hc => hle ((leA_iff hy hr2norm).mpr hc)
        rw [hstep, if_neg hle]
        refine ⟨twice q0, r2, rfl, normalized_twice _, hr2norm, ?_⟩
        intro hpos
        obtain ⟨hv0, hlt0⟩ := hval0 hpos
        have hq : value (twice q0) = 2 * value q0 := value_twice q0
        constructor
        · rw [hq, hr2val]
          have hexp : (2 * value q0) * value ys = 2 * (value q0 * value ys) := by ring
          rw [hexp]
          generalize value q0 * value ys = t at hv0
          omega
        · omega

lemma divF_eq : ∀ (fuel : Nat) (xs ys : List Bool), xs.length ≤ fuel →
    divF fuel xs ys = div xs ys := by
  intro fuel
  induction fuel with
  | zero =>
    intro xs ys hlen
    have hxs : xs = [] := List.length_eq_zero.mp (Nat.le_zero.mp hlen)
    subst hxs
    rw [div]
    rfl
  | succ n ihf =>
    intro xs ys hlen
    by_cases hr : reprA xs = ['0']
    · rw [div, dif_pos hr]
      simp only [divF, if_pos hr]
    · have hne : xs ≠ [] := fun hn => hr (by rw [hn]; rfl)
      have hfl : (fhalf xs).length ≤ n := by
        have h1 := fhalf_length_lt hne
        omega
      rw [div, dif_neg hr]
      simp only [divF, if_neg hr]
      rw [ihf (fhalf xs) ys hfl]

lemma div_zero_spec : ∀ (n : Nat) (xs : List Bool), xs.length ≤ n → Normalized xs →
    div xs [] = some (List.replicate xs.length true, xs) := by
  intro n
  induction n with
  | zero =>
    intro xs hlen hx
    have hxs : xs = [] := List.length_eq_zero.mp (Nat.le_zero.mp hlen)
    subst hxs
    rw [div]
    rfl
  | succ n ih =>
    intro xs hlen hx
    by_cases hr : reprA xs = ['0']
    · have hxs : xs = [] := (reprA_eq_zero_iff hx).mp hr
      subst hxs
      rw [div]
      rfl
    · have hne : xs ≠ [] := fun hn => hr (by rw [hn]; rfl)
      obtain ⟨b, t, hbt⟩ := List.exists_cons_of_ne_nil hne
      subst hbt
      have ht : Normalized t := normalized_cons hx
      have hfh : fhalf (b :: t) = t := by
        unfold fhalf ofBits
        simp only [List.tail_cons]
        exact ht
      have hstep0 := ih t (by simpa using Nat.le_of_succ_le_succ hlen) ht
      have hstep : div (b :: t) [] =
          (if leA [] (if isodd (b :: t) then
              add (twice t) (ofString ['1']) else twice t) then
            match sub (if isodd (b :: t) then
                add (twice t) (ofString ['1']) else twice t) [] with
            | none => none
            | some r3 =>
                some (add (twice (List.replicate t.length true)) (ofString ['1']), r3)
          else some (twice (List.replicate t.length true),
            if isodd (b :: t) then add (twice t) (ofString ['1']) else twice t)) := by
        rw [div, dif_neg hr, hfh, hstep0]
      have hio : isodd (b :: t) = b := by simp [isodd]
      have hr2norm : Normalized
          (if isodd (b :: t) then add (twice t) (ofString ['1']) else twice t) := by
        cases ho : isodd (b :: t)
        · rw [if_neg (by simp [ho])]
          exact normalized_twice t
        · rw [if_pos (by simp [ho])]
          exact normalized_add _ _
      have hr2val : value
          (if isodd (b :: t) then add (twice t) (ofString ['1']) else twice t) =
          value (b :: t) := by
        have hv : value (b :: t) = (cond b 1 0) + 2 * value t := rfl
        rw [hio] at *
        cases b
        · rw [if_neg (by simp), value_twice, hv]
          simp
        · rw [if_pos (by simp), value_add, value_twice, value_one, hv]
          simp
          omega
      have hr2 : (if isodd (b :: t) then add (twice t) (ofString ['1']) else twice t) =
          b :: t := value_inj _ _ hr2norm hx hr2val
      rw [hstep, hr2, if_pos (leA_nil (b :: t))]
      have hzle : value ([] : List Bool) ≤ value (b :: t) := Nat.zero_le _
      obtain ⟨r3, hsub, hr3n, hr3v⟩ := sub_spec hx normalized_nil hzle
      have hz : value ([] : List Bool) = 0 := rfl
      have hr3 : r3 = b :: t := value_inj _ _ hr3n hx (by omega)
      rw [hsub, hr3]
      have hq : add (twice (List.replicate t.length true)) (ofString ['1']) =
          List.replicate (t.length + 1) true := by
        apply value_inj _ _ (normalized_add _ _) (normalized_replicate_true _)
        rw [value_add, value_twice, value_one]
        have h1 := value_replicate_true t.length
        have h2 := value_replicate_true (t.length + 1)
        have hp : (2 : Nat) ^ (t.length + 1) = 2 * 2 ^ t.length := by
          rw [pow_succ]; ring
        omega
      rw [hq]
      simp

lemma mul_nil_nil : mul [] [] = some [] := by
  rw [mul]
  rw [dif_pos (show max (List.length ([] : List Bool)) (List.length ([] : List Bool)) ≤ 1
    by decide)]
  rw [oldmul]
  rfl

lemma mul_two_le {xs ys : List Bool} (h : 2 ≤ max xs.length ys.length) :
    mul xs ys = some [] := by
  rw [mul, dif_neg (by omega)]
  simp only [boolsAsStr_eq_nil, add_nil_nil, mul_nil_nil]
  rfl

lemma sub_normalized {xs ys r : List Bool} (h : sub xs ys = some r) : Normalized r := by
  unfold sub at h
  by_cases hc : ys.length ≤ xs.length
  · rw [if_pos hc] at h
    exact (Option.some.inj h) ▸ normalized_normalize _
  · rw [if_neg hc] at h
    exact absurd h (by simp)

lemma oldmul_normalized {xs ys r : List Bool} (h : oldmul xs ys = some r) :
    Normalized r := by
  rw [oldmul] at h
  by_cases hr : reprA ys = ['0']
  · rw [dif_pos hr] at h
    rw [← Option.some.inj h]
    exact normalized_nil
  · rw [dif_neg hr] at h
    cases hm : mul xs (fhalf ys) with
    | none =>
      rw [hm] at h
      exact absurd h (by simp)
    | some z =>
      rw [hm] at h
      dsimp only at h
      by_cases ho : isodd ys = false
      · rw [if_pos ho] at h
        rw [← Option.some.inj h]
        exact normalized_twice z
      · rw [if_neg ho] at h
        rw [← Option.some.inj h]
        exact normalized_add _ _

lemma mul_normalized {xs ys r : List Bool} (h : mul xs ys = some r) : Normalized r := by
  by_cases hn : max xs.length ys.length ≤ 1
  · rw [mul, dif_pos hn] at h
    exact oldmul_normalized h
  · rw [mul_two_le (by omega)] at h
    rw [← Option.some.inj h]
    exact normalized_nil

lemma div_normalized {xs ys q r : List Bool} (h : div xs ys = some (q, r)) :
    Normalized q ∧ Normalized r := by
  rw [div] at h
  by_cases hr : reprA xs = ['0']
  · rw [dif_pos hr] at h
    simp only [Option.some.injEq, Prod.mk.injEq] at h
    obtain ⟨hq, hrr⟩ := h
    rw [← hq, ← hrr]
    exact ⟨normalized_nil, normalized_nil⟩
  · rw [dif_neg hr] at h
    cases hd : div (fhalf xs) ys with
    | none =>
      rw [hd] at h
      exact absurd h (by simp)
    | some p =>
      obtain ⟨q0, r0⟩ := p
      rw [hd] at h
      dsimp only at h
      by_cases hle : leA ys (if isodd xs then add (twice r0) (ofString ['1']) else twice r0) = true
      · rw [if_pos hle] at h
        cases hs : sub (if isodd xs then add (twice r0) (ofString ['1']) else twice r0) ys with
        | none =>
          rw [hs] at h
          exact absurd h (by simp)
        | some r3 =>
          rw [hs] at h
          dsimp only at h
          simp only [Option.some.injEq, Prod.mk.injEq] at h
          obtain ⟨hq, hrr⟩ := h
          constructor
          · rw [← hq]
            exact normalized_add _ _
          · rw [← hrr]
            exact sub_normalized hs
      · rw [if_neg hle] at h
        simp only [Option.some.injEq, Prod.mk.injEq] at h
        obtain ⟨hq, hrr⟩ := h
        constructor
        · rw [← hq]
          exact normalized_twice _
        · rw [← hrr]
          cases ho : isodd xs
          · rw [if_neg (by simp [ho])]
            exact normalized_twice _
          · rw [if_pos (by simp [ho])]
            exact normalized_add _ _

/-- Claim C1: the spec requires `mul(a, b)` to have value
`value(a) * value(b)` (with `mul("11000","1001") == "11010000"`, 24·9 =
216), but on the repository's own test inputs the code returns the zero
value: `AInt(self.bits[:m])` passes a boolean list as the string
parameter, so every Karatsuba half is zero and `__mul__` returns 0
whenever `max(len(a), len(b)) ≥ 2`.  This also makes the repository's
`test_mul1`/`test_mul2` assertions fail. -/
theorem mul_karatsuba_returns_zero :
    mul [false, false, false, true, true] [true, false, false, true] = some [] ∧
    value [false, false, false, true, true] * value [true, false, false, true] = 216 :=
  ⟨mul_two_le (by decide), by decide⟩

/-- Claim C5: the spec requires `oldmul` to be independently correct as
its own routine, but `oldmul` recurses through the broken `__mul__`
(`z = self * other.fhalf()`), so already `oldmul(3, 2)` returns 0
instead of 6. -/
theorem oldmul_returns_zero :
    oldmul [true, true] [false, true] = some [] ∧
    value [true, true] * value [false, true] = 6 := by
  constructor
  · rw [oldmul, dif_neg (by decide)]
    have hf : fhalf [false, true] = [true] := rfl
    rw [hf]
    have hm : mul [true, true] [true] = some [] := mul_two_le (by decide)
    rw [hm]
    rfl
  · decide

/-- Claim C3: addition is correct ripple-carry addition: the value of
`add(a, b)` is `value(a) + value(b)` for all bit lists (each position is
the three-way parity of the operand bits and the carry, the carry-out
the majority, the final carry appended after the last pair), and a
trailing false carry is absent from the output (the result is
normalized). -/
theorem add_correct : ∀ xs ys : List Bool,
    value (add xs ys) = value xs + value ys ∧ Normalized (add xs ys) :=
  fun xs ys => ⟨value_add xs ys, normalized_add xs ys⟩

/-- Claim C4: under the precondition `value(b) ≤ value(a)` (for
BitIntegers, i.e. normalized bit lists) subtraction returns a normalized
result of value `value(a) - value(b)`; in particular `sub(a, a)` is
zero. -/
theorem sub_correct (xs ys : List Bool) (hx : Normalized xs) (hy : Normalized ys)
    (h : value ys ≤ value xs) :
    ∃ r, sub xs ys = some r ∧ Normalized r ∧ value r = value xs - value ys ∧
      (xs = ys → r = []) := by
  obtain ⟨r, hs, hn, hv⟩ := sub_spec hx hy h
  refine ⟨r, hs, hn, by omega, ?_⟩
  intro he
  subst he
  apply value_inj _ _ hn normalized_nil
  have hz : value ([] : List Bool) = 0 := rfl
  omega

/-- Witness for C4 at a = "11000" (24), b = "1001" (9): 24 - 9 = 15. -/
theorem sub_correct_witness :
    Normalized [false, false, false, true, true] ∧
    Normalized [true, false, false, true] ∧
    value [true, false, false, true] ≤ value [false, false, false, true, true] ∧
    ∃ r, sub [false, false, false, true, true] [true, false, false, true] = some r ∧
      Normalized r ∧
      value r = value [false, false, false, true, true] - value [true, false, false, true] ∧
      ([false, false, false, true, true] = [true, false, false, true] → r = []) :=
  ⟨by decide, by decide, by decide,
    sub_correct _ _ (by decide) (by decide) (by decide)⟩

/-- Claim C2: for every pair of BitIntegers (normalized bit lists) with
a nonzero divisor, `div` returns a quotient/remainder pair with
`value(q) * value(b) + value(r) = value(a)` and
`0 ≤ value(r) < value(b)`. -/
theorem div_correct (xs ys : List Bool) (hx : Normalized xs) (hy : Normalized ys)
    (hz : 0 < value ys) :
    ∃ q r, div xs ys = some (q, r) ∧
      value q * value ys + value r = value xs ∧ value r < value ys := by
  obtain ⟨q, r, hd, -, -, hv⟩ := div_spec xs.length xs ys (le_refl _) hx hy
  obtain ⟨h1, h2⟩ := hv hz
  exact ⟨q, r, hd, h1, h2⟩

/-- Witness for C2 at a = "11000" (24), b = "1001" (9): 24 = 2·9 + 6. -/
theorem div_correct_witness :
    Normalized [false, false, false, true, true] ∧
    Normalized [true, false, false, true] ∧
    0 < value [true, false, false, true] ∧
    ∃ q r, div [false, false, false, true, true] [true, false, false, true] = some (q, r) ∧
      value q * value [true, false, false, true] + value r =
        value [false, false, false, true, true] ∧
      value r < value [true, false, false, true] :=
  ⟨by decide, by decide, by decide,
    div_correct _ _ (by decide) (by decide) (by decide)⟩

/-- Claim C10: `div` always terminates and returns a pair without
raising, for every divisor including zero; the fuel-indexed unrolling
`divF` shows at most bit-length-of-a recursive steps are used. -/
theorem div_total (xs ys : List Bool) (hx : Normalized xs) (hy : Normalized ys) :
    ∃ q r, div xs ys = some (q, r) ∧ divF xs.length xs ys = some (q, r) := by
  obtain ⟨q, r, hd, -, -, -⟩ := div_spec xs.length xs ys (le_refl _) hx hy
  exact ⟨q, r, hd, by rw [divF_eq xs.length xs ys (le_refl _), hd]⟩

/-- Witness for C10 at a = "101" (5), b = "11" (3). -/
theorem div_total_witness :
    Normalized [true, false, true] ∧ Normalized [true, true] ∧
    ∃ q r, div [true, false, true] [true, true] = some (q, r) ∧
      divF [true, false, true].length [true, false, true] [true, true] = some (q, r) :=
  ⟨by decide, by decide, div_total _ _ (by decide) (by decide)⟩

/-- Claim C6 counterexample: with a = "10" (2) and b = "11" (3) we have
value(b) > value(a), yet `sub(a, b)` does not fail: the assert only
compares bit-lengths, which are equal here, and the code returns the
value 1. -/
theorem sub_violation_returns_value :
    value [true, true] = 3 ∧ value [false, true] = 2 ∧
    sub [false, true] [true, true] = some [true] := by decide

/-- Claim C6 amended: when `value(b) > value(a)`, `sub(a, b)` fails
(with an assertion error) exactly when the normalized bit-length of `b`
exceeds that of `a`; when the bit-lengths are equal it returns a value
instead of failing. -/
theorem sub_none_iff_shorter (xs ys : List Bool) (hx : Normalized xs)
    (hy : Normalized ys) (h : value xs < value ys) :
    sub xs ys = none ↔ xs.length < ys.length := by
  unfold sub
  by_cases hc : ys.length ≤ xs.length
  · rw [if_pos hc]
    simp only [reduceCtorEq, false_iff]
    omega
  · rw [if_neg hc]
    simp only [true_iff]
    omega

/-- Witness for the amended C6 at a = "1" (1), b = "10" (2): shorter
minuend, so the subtraction fails. -/
theorem sub_none_iff_shorter_witness :
    Normalized [true] ∧ Normalized [false, true] ∧
    value [true] < value [false, true] ∧
    (sub [true] [false, true] = none ↔ [true].length < [false, true].length) :=
  ⟨by decide, by decide, by decide,
    sub_none_iff_shorter _ _ (by decide) (by decide) (by decide)⟩

/-- Claim C7 counterexample: dividing a = "11000" (24) by the zero
value does not fail with any error: the code returns the pair
(quotient "11111" = 31, remainder "11000" = 24). -/
theorem div_zero_divisor_returns :
    value ([] : List Bool) = 0 ∧
    div [false, false, false, true, true] [] =
      some ([true, true, true, true, true], [false, false, false, true, true]) := by
  refine ⟨rfl, ?_⟩
  rw [← divF_eq 5 [false, false, false, true, true] [] (by decide)]
  decide

/-- Claim C7 amended: there is no zero-divisor check; `div(a, 0)`
returns the pair whose quotient has all bit-length-of-a bits set (value
`2^bitlen(a) - 1`) and whose remainder is `a` itself. -/
theorem div_zero_divisor_eq (xs : List Bool) (hx : Normalized xs) :
    div xs [] = some (List.replicate xs.length true, xs) :=
  div_zero_spec xs.length xs (le_refl _) hx

/-- Witness for the amended C7 at a = "10" (2). -/
theorem div_zero_divisor_eq_witness :
    Normalized [false, true] ∧
    div [false, true] [] = some ([true, true], [false, true]) :=
  ⟨by decide, div_zero_divisor_eq [false, true] (by decide)⟩

/-- Claim C8 counterexample: construction from the string "12", which
contains the non-binary character '2', does not fail: `__init__` reads
'2' as a 0 bit and produces the value 2. -/
theorem ofString_accepts_nonbinary :
    ofString ['1', '2'] = [false, true] ∧ value (ofString ['1', '2']) = 2 := by decide

/-- Claim C8 amended: construction from a string never fails; every
character other than '1' is read as a 0 bit, i.e. construction behaves
exactly as if all non-'1' characters were replaced by '0'. -/
theorem ofString_nonone_as_zero (s : List Char) :
    ofString s = ofString (s.map (fun c => if c == '1' then '1' else '0')) := by
  unfold ofString ofBits
  have hfun : ((fun c => c == '1') ∘ fun c : Char => if c == '1' then '1' else '0')
      = (fun c : Char => c == '1') := by
    funext c
    by_cases hc : c == '1'
    · have h1 : c = '1' := beq_iff_eq.mp hc
      subst h1
      rfl
    · have hc2 : (c == '1') = false := by
        cases h2 : (c == '1')
        · rfl
        · exact absurd h2 hc
      simp only [Function.comp_apply]
      rw [if_neg (by simp [hc2]), hc2]
      decide
  rw [List.map_reverse, List.map_reverse, List.map_map, hfun]

/-- Claim C9: every value a public operation hands back to a caller is
normalized: construction from string or bits, addition, subtraction,
multiplication, division (both components), halving and doubling. -/
theorem normalized_invariant :
    (∀ s : List Char, Normalized (ofString s)) ∧
    (∀ l : List Bool, Normalized (ofBits l)) ∧
    (∀ xs ys : List Bool, Normalized (add xs ys)) ∧
    (∀ xs ys r : List Bool, sub xs ys = some r → Normalized r) ∧
    (∀ xs ys r : List Bool, mul xs ys = some r → Normalized r) ∧
    (∀ xs ys q r : List Bool, div xs ys = some (q, r) → Normalized q ∧ Normalized r) ∧
    (∀ xs : List Bool, Normalized (fhalf xs)) ∧
    (∀ xs : List Bool, Normalized (twice xs)) :=
  ⟨normalized_ofString, normalized_ofBits, normalized_add,
    fun _ _ _ h => sub_normalized h, fun _ _ _ h => mul_normalized h,
    fun _ _ _ _ h => div_normalized h, normalized_fhalf, normalized_twice⟩

/-- Witness for C9, discharging the hypotheses of the conditional
conjuncts at concrete inputs: 2 - 1 = 1 for sub, 3 · 3 for mul (which
returns the buggy zero value, still normalized), 3 div 1 = (3, 0) for
div. -/
theorem normalized_invariant_witness :
    sub [false, true] [true] = some [true] ∧ Normalized [true] ∧
    mul [true, true] [true, true] = some [] ∧ Normalized ([] : List Bool) ∧
    div [true, true] [true] = some ([true, true], []) ∧
    Normalized [true, true] ∧ Normalized ([] : List Bool) := by
  have hs : sub [false, true] [true] = some [true] := by decide
  have hm : mul [true, true] [true, true] = some [] := mul_two_le (by decide)
  have hd : div [true, true] [true] = some ([true, true], []) := by
    rw [← divF_eq 2 [true, true] [true] (by decide)]
    decide
  exact ⟨hs, normalized_invariant.2.2.2.1 _ _ _ hs, hm,
    normalized_invariant.2.2.2.2.1 _ _ _ hm, hd,
    (normalized_invariant.2.2.2.2.2.1 _ _ _ _ hd).1,
    (normalized_invariant.2.2.2.2.2.1 _ _ _ _ hd).2⟩

end AInt
